import Mathlib

/-!
Verification of the statistical core of `fitgrid/utils/lmer.py`.

The file shallowly embeds the data manipulations of the four analysis
functions (`fit_lmers`, `get_lmer_AICs`, `plot_lmer_rERPs`'s FDR
significance filter, `get_lmer_dfbetas`) over lists of records, with
pandas/NumPy floats modelled as exact rationals, NaN cells as `Option`,
and raised Python exceptions as `Except.error`.
-/

namespace Fitgrid

instance {ε α : Type} [DecidableEq ε] [DecidableEq α] : DecidableEq (Except ε α) :=
  fun x y =>
    match x, y with
    | .ok a, .ok b =>
      if h : a = b then isTrue (by rw [h]) else isFalse (by intro hc; cases hc; exact h rfl)
    | .error e, .error f =>
      if h : e = f then isTrue (by rw [h]) else isFalse (by intro hc; cases hc; exact h rfl)
    | .ok _, .error _ => isFalse (by intro hc; cases hc)
    | .error _, .ok _ => isFalse (by intro hc; cases hc)

/-! ### Generic helpers modelling Python / pandas builtins -/

/-- `pandas.unique` / `.unique()`: distinct values in first-appearance order. -/
def uniqueFA {α : Type} [DecidableEq α] (l : List α) : List α :=
  l.foldl (fun acc a => if a ∈ acc then acc else acc ++ [a]) []

/-- Python `max` over a list (`None` on the empty list, where Python raises). -/
def listMax? : List ℕ → Option ℕ
  | [] => none
  | a :: rest =>
    match listMax? rest with
    | none => some a
    | some b => some (max a b)

/-- Python `min` over a list of floats (`None` on the empty list, where Python raises). -/
def listMin? : List ℚ → Option ℚ
  | [] => none
  | a :: rest =>
    match listMin? rest with
    | none => some a
    | some b => some (min a b)

/-! ### The FDR significance filter of `plot_lmer_rERPs` (lmer.py lines 376-399)

For one series of p-values the code computes
```
m = len(fg_lmer_coef)
pvals = fg_lmer_coef['P-val'].copy().sort_values()
ks = list()
if fdr not in ['BH', 'BY']:
    raise ValueError(f"fdr must be BH or BY")
if fdr == 'BH':
    c_m = 1
elif fdr == 'BY':
    c_m = np.sum([1 / i for i in range(1, m + 1)])
for k, p in enumerate(pvals):
    kmcm = (k / (m * c_m))
    if p <= kmcm * alpha:
        ks.append(k)
if len(ks) > 0:
    crit_p = pvals.iloc[max(ks)]
else:
    crit_p = 0.0
fg_lmer_coef['sig_fdr'] = fg_lmer_coef['P-val'] < crit_p
```
-/

/-- `pvals.copy().sort_values()`: the p-value series sorted ascending. -/
def sortedPvals (pvals : List ℚ) : List ℚ :=
  List.insertionSort (fun a b => a ≤ b) pvals

/-- `np.sum([1 / i for i in range(1, m + 1)])`, the harmonic number H_m. -/
def harmonic (m : ℕ) : ℚ :=
  ∑ i ∈ Finset.range m, 1 / ((i : ℚ) + 1)

/-- `c_m = 1` for BH, the harmonic number for BY (code reaches this only for
those two selector values). -/
def c_m (fdr : String) (m : ℕ) : ℚ :=
  if fdr = "BH" then 1 else harmonic m

/-- The list `ks`: 0-indexed ranks `k` of the ascending-sorted p-values with
`p <= (k / (m * c_m)) * alpha`. -/
def candRanks (cm alpha : ℚ) (pvals : List ℚ) : List ℕ :=
  (List.range pvals.length).filter
    (fun k => decide
      ((sortedPvals pvals).getD k 0 ≤ ((k : ℚ) / ((pvals.length : ℚ) * cm)) * alpha))

/-- `crit_p`: the sorted p-value at rank `max(ks)`, or `0.0` when `ks` is empty. -/
def critP (cm alpha : ℚ) (pvals : List ℚ) : ℚ :=
  match listMax? (candRanks cm alpha pvals) with
  | some k => (sortedPvals pvals).getD k 0
  | none => 0

/-- The whole filter: validates the method selector (raising `ValueError` for a
selector outside BH/BY), then returns the critical p-value together with the
`sig_fdr` column `P-val < crit_p` over the original (time-ordered) series. -/
def fdrFilter (fdr : String) (alpha : ℚ) (pvals : List ℚ) :
    Except String (ℚ × List Bool) :=
  if fdr = "BH" ∨ fdr = "BY" then
    let crit_p := critP (c_m fdr pvals.length) alpha pvals
    Except.ok (crit_p, pvals.map (fun p => decide (p < crit_p)))
  else
    Except.error "fdr must be BH or BY"

/-! ### String ordering (Python's codepoint-lexicographic string comparison)

pandas `sort_index` orders string index levels by codepoint; we implement the
same order on `String.data` so that it evaluates inside the kernel. -/

/-- Codepoint-lexicographic `≤` on character lists. -/
def charsLe : List Char → List Char → Bool
  | [], _ => true
  | _ :: _, [] => false
  | a :: as, b :: bs =>
    if a.toNat < b.toNat then true
    else if b.toNat < a.toNat then false
    else charsLe as bs

/-- Python's `<=` on strings. -/
def strLe (s t : String) : Bool := charsLe s.data t.data

/-! ### `get_lmer_AICs` (lmer.py lines 97-147)

Input: the `lmer_coefs` table from `fit_lmers`, a (Time, model, param, key)
multi-indexed DataFrame with one column per channel; a `Row` is one of its
rows, with `none` for a NaN cell (dropped by `stack`). -/

structure Row where
  time : ℤ
  model : String
  param : String
  key : String
  vals : List (String × Option ℚ)
deriving DecidableEq

/-- One row of the stacked, (Time, model, channel)-indexed AIC (or
has_warning) frame. -/
structure Cell where
  time : ℤ
  model : String
  channel : String
  value : ℚ
deriving DecidableEq

/-- One row of the returned table: AIC merged with min_delta and has_warning
on the (Time, model, channel) key. -/
structure AICEntry where
  time : ℤ
  model : String
  channel : String
  aic : ℚ
  min_delta : ℚ
  has_warning : ℚ
deriving DecidableEq

/-- `lmer_coefs.index.get_level_values('param').unique()[0]` (raises on an
empty frame, handled at the call site). -/
def firstParam (rows : List Row) : String :=
  match rows.head? with
  | some r => r.param
  | none => ""

/-- `lmer_coefs.loc[pd.IndexSlice[:, :, first_param, key], :] ... .stack(0)`:
slice the rows with the given param and key, then stack the channel columns,
dropping NaN cells (pandas `stack` default). -/
def stackCells (rows : List Row) (fp akey : String) : List Cell :=
  (rows.filter (fun r => decide (r.param = fp ∧ r.key = akey))).flatMap
    (fun r => r.vals.filterMap
      (fun cv => cv.2.map (fun v => Cell.mk r.time r.model cv.1 v)))

/-- `(Time, model, channel)`-lexicographic order on cells, as used by
`sort_index`. -/
def cellLe (x y : Cell) : Prop :=
  (if x.time ≠ y.time then decide (x.time ≤ y.time)
   else if x.model ≠ y.model then strLe x.model y.model
   else strLe x.channel y.channel) = true

instance : DecidableRel cellLe := fun x y =>
  inferInstanceAs (Decidable (_ = true))

/-- `AICs.sort_index()` / `has_warnings.sort_index()`. -/
def sortCells (cells : List Cell) : List Cell :=
  List.insertionSort cellLe cells

/-- `AICs.loc[pd.IndexSlice[time, :, chan], 'AIC']`: the AIC values of the
models fitted at one (time, channel) grid point. -/
def sliceCells (cells : List Cell) (t : ℤ) (c : String) : List Cell :=
  cells.filter (fun x => decide (x.time = t ∧ x.channel = c))

/-- `min(AICs.loc[slicer, 'AIC'])`; the `none` branch is Python's
`ValueError` from `min()` of an empty sequence, checked separately. -/
def sliceMin (cells : List Cell) (t : ℤ) (c : String) : ℚ :=
  match listMin? ((sliceCells cells t c).map (fun x => x.value)) with
  | some m => m
  | none => 0

/-- One row of the AIC frame after the min-delta loop. -/
structure DeltaCell where
  time : ℤ
  model : String
  channel : String
  aic : ℚ
  min_delta : ℚ
deriving DecidableEq

/-- The loop `AICs.loc[slicer, 'min_delta'] = AICs.loc[slicer, 'AIC'] -
min(AICs.loc[slicer, 'AIC'])` over every observed time and channel: each row
receives its AIC minus the minimum AIC at its own (time, channel). -/
def addDeltas (cells : List Cell) : List DeltaCell :=
  cells.map (fun x =>
    DeltaCell.mk x.time x.model x.channel x.value
      (x.value - sliceMin cells x.time x.channel))

/-- The loop runs over the full product of observed times and channels; a
combination with no fitted model makes Python's `min([])` raise.  This guard
is `true` exactly when the loop completes. -/
def allCombosNonempty (cells : List Cell) : Bool :=
  (uniqueFA (cells.map (fun x => x.time))).all (fun t =>
    (uniqueFA (cells.map (fun x => x.channel))).all (fun c =>
      decide (sliceCells cells t c ≠ [])))

/-- `get_lmer_AICs(lmer_coefs)`: stack the AIC rows of the first param, sort,
run the min-delta loop (raising on an empty (time, channel) slice), stack and
sort the has_warning rows, and inner-merge the two on their
(Time, model, channel) index (`pandas.merge` with default `how='inner'`). -/
def get_lmer_AICs (rows : List Row) : Except String (List AICEntry) :=
  if rows.isEmpty then
    Except.error "IndexError: empty lmer_coefs"
  else
    let fp := firstParam rows
    let aics := sortCells (stackCells rows fp "AIC")
    if allCombosNonempty aics then
      let deltas := addDeltas aics
      let warns := sortCells (stackCells rows fp "has_warning")
      Except.ok (deltas.flatMap (fun d =>
        (warns.filter (fun w =>
          decide (w.time = d.time ∧ w.model = d.model ∧ w.channel = d.channel))).map
          (fun w => AICEntry.mk d.time d.model d.channel d.aic d.min_delta w.value)))
    else
      Except.error "ValueError: min() arg is an empty sequence"

/-- Concrete `lmer_coefs` input whose AIC and has_warning rows misalign: the
has_warning value of channel MiCe is NaN, so its stacked row is missing. -/
def rowsC4 : List Row :=
  [ Row.mk 0 "x+(1|s)" "(Intercept)" "AIC" [("MiCe", some 12), ("MiPf", some 10)],
    Row.mk 0 "x+(1|s)" "(Intercept)" "has_warning" [("MiPf", some 0), ("MiCe", none)] ]

/-- Concrete input in which channel chA was fitted only at time 0 and channel
chB only at time 1, so the (0, chB) combination of observed times and
channels carries no fitted formula. -/
def rowsC8 : List Row :=
  [ Row.mk 0 "m1" "(Intercept)" "AIC" [("chA", some 1)],
    Row.mk 1 "m1" "(Intercept)" "AIC" [("chB", some 2)] ]

/-- Concrete well-formed input: two models fitted at a single
(time, channel) grid point, AIC and has_warning rows aligned. -/
def rowsOK : List Row :=
  [ Row.mk 0 "m1" "(Intercept)" "AIC" [("chA", some 10)],
    Row.mk 0 "m2" "(Intercept)" "AIC" [("chA", some 12)],
    Row.mk 0 "m1" "(Intercept)" "has_warning" [("chA", some 0)],
    Row.mk 0 "m2" "(Intercept)" "has_warning" [("chA", some 1)] ]

/-! ### `fit_lmers` (lmer.py lines 10-94)

`fitgrid.lmer(...)` is the external Model Fit Adapter; one call returns a
coefficient table (Time, param, key rows × channel columns) plus the per-fit
AIC and has_warning tables (Time rows × channel columns). -/

structure CoefRow where
  time : ℤ
  param : String
  key : String
  vals : List (String × Option ℚ)
deriving DecidableEq

structure AttribRow where
  time : ℤ
  vals : List (String × Option ℚ)
deriving DecidableEq

structure FitResult where
  coefs : List CoefRow
  AIC : List AttribRow
  has_warning : List AttribRow
deriving DecidableEq

/-- One loop iteration of `fit_lmers`: the coefficient rows tagged with the
formula as `model`, followed — for each attribute `AIC`, `has_warning` and
each param of the coefficient table — by the attribute rows replicated onto
that param (the denormalization loop `coefs_df = coefs_df.append(param_attrib)`). -/
def blockOf (adapter : String → FitResult) (rhs : String) : List Row :=
  let fr := adapter rhs
  let coefRows := fr.coefs.map (fun cr => Row.mk cr.time rhs cr.param cr.key cr.vals)
  let params := uniqueFA (fr.coefs.map (fun cr => cr.param))
  let attribRows :=
    [("AIC", fr.AIC), ("has_warning", fr.has_warning)].flatMap (fun av =>
      params.flatMap (fun p => av.2.map (fun ar => Row.mk ar.time rhs p av.1 ar.vals)))
  coefRows ++ attribRows

/-- `(Time, model, param, key)`-lexicographic order used by the final
`lmer_coefs.sort_index()`. -/
def rowLe (x y : Row) : Prop :=
  (if x.time ≠ y.time then decide (x.time ≤ y.time)
   else if x.model ≠ y.model then strLe x.model y.model
   else if x.param ≠ y.param then strLe x.param y.param
   else strLe x.key y.key) = true

instance : DecidableRel rowLe := fun _ _ =>
  inferInstanceAs (Decidable (_ = true))

/-- `lmer_coefs.sort_index()`. -/
def sortRows (l : List Row) : List Row := List.insertionSort rowLe l

/-- `fit_lmers`: one block per RHS formula appended in order, then the final
re-sort; afterwards the optional `save_as` write, whose failure is caught and
turned into a `warnings.warn` message while the table is returned unchanged.
The pair holds the returned table and the emitted warnings. -/
def fit_lmers (adapter : String → FitResult) (RHSs : List String)
    (save_as : Option (String × String))
    (store : String → String → List Row → Except String Unit) :
    List Row × List String :=
  let lmer_coefs := sortRows (RHSs.flatMap (blockOf adapter))
  match save_as with
  | none => (lmer_coefs, [])
  | some fg =>
    match store fg.1 fg.2 lmer_coefs with
    | Except.ok _ => (lmer_coefs, [])
    | Except.error fail =>
      (lmer_coefs,
        ["save_as failed: " ++ fail ++
         ". You can try to save the returned dataframe with pandas.to_hdf()"])

/-- A one-cell deterministic Model Fit Adapter returning the same fit for
every formula. -/
def constFR : FitResult :=
  FitResult.mk
    [CoefRow.mk 0 "(Intercept)" "Estimate" [("chA", some 1)]]
    [AttribRow.mk 0 [("chA", some 2)]]
    [AttribRow.mk 0 [("chA", some 0)]]

def cAdapter : String → FitResult := fun _ => constFR

def okStore : String → String → List Row → Except String Unit :=
  fun _ _ _ => Except.ok ()

def failStore : String → String → List Row → Except String Unit :=
  fun _ _ _ => Except.error "No such file or directory"

/-! ### `get_lmer_dfbetas` (lmer.py lines 481-568) -/

/-- One row of the epochs table (after resetting/setting the
(epoch_id, time) index): only the grouping-factor column is inspected here;
the rest of the row is opaque payload forwarded to the fit adapter. -/
structure ERow where
  epochId : ℤ
  time : ℤ
  factorVal : String
  payload : ℤ
deriving DecidableEq

/-- One cell of a fit's `.coefs` table: a (time, param, statistic-key) row
and a channel column. -/
structure CoefCell where
  time : ℤ
  param : String
  key : String
  chan : String
  val : ℚ
deriving DecidableEq

/-- One value of the returned DFBETAS table: (time, param, excluded level)
row and channel column. -/
structure DfbCell where
  time : ℤ
  param : String
  level : String
  chan : String
  val : ℚ
deriving DecidableEq

/-- `get_lmer_dfbetas(epochs, factor, **kwargs)`: for each distinct level of
the factor (`table[factor].unique()`), refit on the table with that level's
rows excluded (`table[table[factor] != level]`); fit once on the complete
table; align the leave-one-level-out Estimate rows with their SE rows and the
full-data Estimate rows on the (time, param, channel) key, and return
`(full_estimate - looo_estimate) / looo_se`. -/
def get_lmer_dfbetas (fit : List ERow → List CoefCell) (table : List ERow) :
    List DfbCell :=
  let levels := uniqueFA (table.map (fun r => r.factorVal))
  let looo_coefs := levels.map (fun lv =>
    (lv, fit (table.filter (fun r => decide (¬ r.factorVal = lv)))))
  let all_levels_coefs := fit table
  looo_coefs.flatMap (fun lc =>
    (lc.2.filter (fun c => decide (c.key = "Estimate"))).filterMap (fun est =>
      match
        lc.2.find? (fun c => decide (c.key = "SE" ∧ c.time = est.time ∧
          c.param = est.param ∧ c.chan = est.chan)),
        all_levels_coefs.find? (fun c => decide (c.key = "Estimate" ∧
          c.time = est.time ∧ c.param = est.param ∧ c.chan = est.chan)) with
      | some se, some full =>
        some (DfbCell.mk est.time est.param lc.1 est.chan
          ((full.val - est.val) / se.val))
      | _, _ => none))

/-- A two-epoch table with grouping factor levels s1 and s2. -/
def dfTable : List ERow :=
  [ERow.mk 0 0 "s1" 5, ERow.mk 1 0 "s2" 7]

/-- A deterministic one-cell fit adapter: the Estimate is the sum of the
payloads of the fitted rows, the SE is 1. -/
def dfFit : List ERow → List CoefCell := fun rows =>
  [CoefCell.mk 0 "(Intercept)" "Estimate" "chA"
     (((rows.map (fun r => r.payload)).sum : ℤ) : ℚ),
   CoefCell.mk 0 "(Intercept)" "SE" "chA" 1]

/-! ### Helper lemmas -/

theorem listMax?_eq_none {l : List ℕ} (h : listMax? l = none) : l = [] := by
  cases l with
  | nil => rfl
  | cons a rest =>
    simp only [listMax?] at h
    cases hr : listMax? rest <;> simp [hr] at h

theorem listMax?_mem {l : List ℕ} {a : ℕ} (h : listMax? l = some a) : a ∈ l := by
  induction l generalizing a with
  | nil => simp [listMax?] at h
  | cons x rest ih =>
    simp only [listMax?] at h
    cases hr : listMax? rest with
    | none =>
      rw [hr] at h
      simp only [Option.some.injEq] at h
      simp [← h]
    | some b =>
      rw [hr] at h
      simp only [Option.some.injEq] at h
      rcases max_choice x b with hm | hm
      · simp [← h, hm]
      · right
        rw [← h, hm]
        exact ih hr

theorem le_listMax? {l : List ℕ} {a b : ℕ} (hb : b ∈ l) (h : listMax? l = some a) :
    b ≤ a := by
  induction l generalizing a with
  | nil => simp at hb
  | cons x rest ih =>
    simp only [listMax?] at h
    cases hr : listMax? rest with
    | none =>
      have : rest = [] := listMax?_eq_none hr
      subst this
      simp at hb
      rw [hr] at h
      simp only [Option.some.injEq] at h
      omega
    | some c =>
      rw [hr] at h
      simp only [Option.some.injEq] at h
      rcases List.mem_cons.mp hb with hbx | hbr
      · subst hbx
        omega
      · have := ih hbr hr
        omega

theorem listMax?_isSome_of_mem {l : List ℕ} {b : ℕ} (hb : b ∈ l) :
    ∃ a, listMax? l = some a := by
  cases hl : listMax? l with
  | none => rw [listMax?_eq_none hl] at hb; simp at hb
  | some a => exact ⟨a, rfl⟩

theorem listMin?_mem {l : List ℚ} {a : ℚ} (h : listMin? l = some a) : a ∈ l := by
  induction l generalizing a with
  | nil => simp [listMin?] at h
  | cons x rest ih =>
    simp only [listMin?] at h
    cases hr : listMin? rest with
    | none =>
      rw [hr] at h
      simp only [Option.some.injEq] at h
      simp [← h]
    | some b =>
      rw [hr] at h
      simp only [Option.some.injEq] at h
      rcases min_choice x b with hm | hm
      · simp [← h, hm]
      · right
        rw [← h, hm]
        exact ih hr

theorem listMin?_le {l : List ℚ} {a b : ℚ} (hb : b ∈ l) (h : listMin? l = some a) :
    a ≤ b := by
  induction l generalizing a with
  | nil => simp at hb
  | cons x rest ih =>
    simp only [listMin?] at h
    cases hr : listMin? rest with
    | none =>
      have hre : rest = [] := by
        cases rest with
        | nil => rfl
        | cons y t =>
          simp only [listMin?] at hr
          cases ht : listMin? t <;> simp [ht] at hr
      subst hre
      simp at hb
      rw [hr] at h
      simp only [Option.some.injEq] at h
      subst hb
      exact le_of_eq h.symm
    | some c =>
      rw [hr] at h
      simp only [Option.some.injEq] at h
      rcases List.mem_cons.mp hb with hbx | hbr
      · subst hbx
        rw [← h]
        exact min_le_left _ _
      · calc a = min x c := h.symm
          _ ≤ c := min_le_right _ _
          _ ≤ b := ih hbr hr

theorem listMin?_isSome_of_mem {l : List ℚ} {b : ℚ} (hb : b ∈ l) :
    ∃ a, listMin? l = some a := by
  cases hl : listMin? l with
  | none =>
    have : l = [] := by
      cases l with
      | nil => rfl
      | cons y t =>
        simp only [listMin?] at hl
        cases ht : listMin? t <;> simp [ht] at hl
    rw [this] at hb
    simp at hb
  | some a => exact ⟨a, rfl⟩

theorem length_sortedPvals (pvals : List ℚ) :
    (sortedPvals pvals).length = pvals.length :=
  List.length_insertionSort (fun a b => a ≤ b) pvals

theorem mem_sortedPvals {pvals : List ℚ} {x : ℚ} :
    x ∈ sortedPvals pvals ↔ x ∈ pvals :=
  List.mem_insertionSort (fun a b => a ≤ b)

theorem sortedPvals_sorted (pvals : List ℚ) :
    List.Sorted (fun a b : ℚ => a ≤ b) (sortedPvals pvals) :=
  List.sorted_insertionSort (fun a b => a ≤ b) pvals

theorem sortedPvals_getD_nonneg {pvals : List ℚ} (hp : ∀ p ∈ pvals, 0 ≤ p)
    {k : ℕ} (hk : k < pvals.length) : 0 ≤ (sortedPvals pvals).getD k 0 := by
  have hk' : k < (sortedPvals pvals).length := by rwa [length_sortedPvals]
  rw [List.getD_eq_get _ _ hk']
  exact hp _ (mem_sortedPvals.mp (List.get_mem _ _ hk'))

theorem sortedPvals_getD_mono {pvals : List ℚ} {i j : ℕ} (hij : i ≤ j)
    (hj : j < pvals.length) :
    (sortedPvals pvals).getD i 0 ≤ (sortedPvals pvals).getD j 0 := by
  have hj' : j < (sortedPvals pvals).length := by rwa [length_sortedPvals]
  have hi' : i < (sortedPvals pvals).length := lt_of_le_of_lt hij hj'
  rw [List.getD_eq_get _ _ hi', List.getD_eq_get _ _ hj']
  exact (sortedPvals_sorted pvals).rel_get_of_le (by exact hij)

theorem candRanks_lt_length {cm alpha : ℚ} {pvals : List ℚ} {k : ℕ}
    (h : k ∈ candRanks cm alpha pvals) : k < pvals.length := by
  have := (List.mem_filter.mp h).1
  exact List.mem_range.mp this

theorem mem_candRanks {cm alpha : ℚ} {pvals : List ℚ} {k : ℕ} :
    k ∈ candRanks cm alpha pvals ↔
      k < pvals.length ∧
        (sortedPvals pvals).getD k 0 ≤
          ((k : ℚ) / ((pvals.length : ℚ) * cm)) * alpha := by
  simp [candRanks, List.mem_filter, List.mem_range]

theorem critP_nonneg {cm alpha : ℚ} {pvals : List ℚ} (hp : ∀ p ∈ pvals, 0 ≤ p) :
    0 ≤ critP cm alpha pvals := by
  unfold critP
  cases hmax : listMax? (candRanks cm alpha pvals) with
  | none => exact le_refl 0
  | some k =>
    exact sortedPvals_getD_nonneg hp (candRanks_lt_length (listMax?_mem hmax))

theorem one_le_harmonic {m : ℕ} (h : 1 ≤ m) : 1 ≤ harmonic m := by
  have h0 : (0 : ℕ) ∈ Finset.range m := Finset.mem_range.mpr h
  have := Finset.single_le_sum (f := fun i : ℕ => 1 / ((i : ℚ) + 1))
    (fun i _ => by positivity) h0
  simpa [harmonic] using this

theorem c_m_BH (m : ℕ) : c_m "BH" m = 1 := by simp [c_m]

theorem c_m_BY (m : ℕ) : c_m "BY" m = harmonic m := by
  have : ¬ ("BY" : String) = "BH" := by decide
  simp [c_m, this]

/-! ### Claim theorems: the FDR filter -/

/-- Claim C1: the FDR significance filter implements the standard step-up
procedure: with `c(m) = 1` for BH and the harmonic number for BY, a 0-indexed
rank `k` of the ascending-sorted p-values is a candidate iff
`p_k ≤ (k / (m·c(m)))·alpha`; the critical p-value is the sorted p-value at the
largest candidate rank (0 if none); a point is flagged significant iff its
p-value is strictly below the critical p-value.  In the concrete scenario
p-values `[0.01, 0.04, 0.03, 0.005]`, `alpha = 0.05`, method BH, the critical
p-value is `0.01` and only the point with p-value `0.005` is flagged. -/
theorem C1_fdr_step_up :
    (∀ m, c_m "BH" m = 1) ∧
    (∀ m, c_m "BY" m = ∑ i ∈ Finset.range m, 1 / ((i : ℚ) + 1)) ∧
    (∀ cm alpha (pvals : List ℚ) (k : ℕ),
      k ∈ candRanks cm alpha pvals ↔
        k < pvals.length ∧
          (sortedPvals pvals).getD k 0 ≤
            ((k : ℚ) / ((pvals.length : ℚ) * cm)) * alpha) ∧
    (∀ cm alpha (pvals : List ℚ),
      critP cm alpha pvals =
        match listMax? (candRanks cm alpha pvals) with
        | some k => (sortedPvals pvals).getD k 0
        | none => 0) ∧
    (∀ alpha (pvals : List ℚ),
      fdrFilter "BH" alpha pvals =
        Except.ok (critP 1 alpha pvals,
          pvals.map (fun p => decide (p < critP 1 alpha pvals)))) ∧
    (∀ alpha (pvals : List ℚ),
      fdrFilter "BY" alpha pvals =
        Except.ok (critP (harmonic pvals.length) alpha pvals,
          pvals.map (fun p => decide (p < critP (harmonic pvals.length) alpha pvals)))) ∧
    fdrFilter "BH" (1/20) [1/100, 1/25, 3/100, 1/200] =
      Except.ok (1/100, [false, false, false, true]) := by
  refine ⟨c_m_BH, ?_, fun cm alpha pvals k => mem_candRanks, fun _ _ _ => rfl, ?_, ?_, ?_⟩
  · intro m
    rw [c_m_BY]
    rfl
  · intro alpha pvals
    simp [fdrFilter, c_m_BH]
  · intro alpha pvals
    simp [fdrFilter, c_m_BY]
  · with_unfolding_all decide

/-- Claim C5: a method selector outside `{"BH", "BY"}` makes the FDR filter
fail with the invalid-argument error, uniformly in the data: the outcome is
the same `ValueError` for every alpha and p-value series, so no partial
result ever escapes. -/
theorem C5_invalid_fdr_method (fdr : String)
    (h : ¬ (fdr = "BH" ∨ fdr = "BY")) (alpha : ℚ) (pvals : List ℚ) :
    fdrFilter fdr alpha pvals = Except.error "fdr must be BH or BY" := by
  simp only [fdrFilter, if_neg h]

theorem C5_invalid_fdr_method_w :
    (¬ (("XX" : String) = "BH" ∨ ("XX" : String) = "BY")) ∧
    fdrFilter "XX" (1/20) [1/2, 1/3] = Except.error "fdr must be BH or BY" :=
  ⟨by decide, C5_invalid_fdr_method "XX" (by decide) (1/20) [1/2, 1/3]⟩

theorem critP_singleton {cm alpha p : ℚ} (hp : 0 < p) : critP cm alpha [p] = 0 := by
  have hc : candRanks cm alpha [p] = [] := by
    unfold candRanks
    apply List.filter_eq_nil_iff.mpr
    intro k hk
    have hk0 : k = 0 := by
      have hlt := List.mem_range.mp hk
      have hl : ([p] : List ℚ).length = 1 := rfl
      rw [hl] at hlt
      omega
    subst hk0
    simp only [decide_eq_true_eq]
    have hget : (sortedPvals [p]).getD 0 0 = p := rfl
    rw [hget, Nat.cast_zero, zero_div, zero_mul]
    exact not_le.mpr hp
  simp [critP, hc, listMax?]

/-- Claim C10: the candidate threshold at 0-indexed rank 0 is 0, so when the
p-values are nonnegative the smallest sorted p-value can only be a candidate
if it is exactly 0; in particular a singleton series with one positive p-value
yields critical p-value 0 and no significant point, for either method and any
alpha. -/
theorem C10_rank_zero_threshold :
    (∀ cm alpha (pvals : List ℚ), (∀ p ∈ pvals, 0 ≤ p) →
      0 ∈ candRanks cm alpha pvals → (sortedPvals pvals).getD 0 0 = 0) ∧
    (∀ fdr alpha (p : ℚ), (fdr = "BH" ∨ fdr = "BY") → 0 < p →
      fdrFilter fdr alpha [p] = Except.ok (0, [false])) := by
  constructor
  · intro cm alpha pvals hp h0
    have hmem := mem_candRanks.mp h0
    have hle : (sortedPvals pvals).getD 0 0 ≤ 0 := by
      have := hmem.2
      rwa [Nat.cast_zero, zero_div, zero_mul] at this
    exact le_antisymm hle (sortedPvals_getD_nonneg hp hmem.1)
  · intro fdr alpha p hv hp
    have hcrit : ∀ c, critP c alpha [p] = 0 := fun _ => critP_singleton hp
    have hflag : decide (p < (0 : ℚ)) = false := by
      simp [not_lt.mpr hp.le]
    rcases hv with hv | hv <;> subst hv <;> simp [fdrFilter, hcrit, hflag]

theorem C10_rank_zero_threshold_w :
    ((∀ p ∈ ([0] : List ℚ), 0 ≤ p) ∧ 0 ∈ candRanks 1 (1/20) [0] ∧
      (sortedPvals [0]).getD 0 0 = 0) ∧
    ((0 : ℚ) < 1/2 ∧ fdrFilter "BH" (1/20) [1/2] = Except.ok (0, [false])) := by
  have h1 : ∀ p ∈ ([0] : List ℚ), 0 ≤ p := by norm_num
  have h2 : 0 ∈ candRanks 1 (1/20) [0] := by with_unfolding_all decide
  have h3 : (0 : ℚ) < 1/2 := by norm_num
  exact ⟨⟨h1, h2, C10_rank_zero_threshold.1 1 (1/20) [0] h1 h2⟩,
    h3, C10_rank_zero_threshold.2 "BH" (1/20) (1/2) (Or.inl rfl) h3⟩

/-- For a negative alpha and nonnegative p-values, every rank except 0 fails
the candidate test under any positive correction factor, and rank 0's
threshold is 0 under any factor, so the critical p-value does not depend on
the correction factor at all. -/
theorem critP_eq_of_neg_alpha {cm cm' alpha : ℚ} (hcm : 0 < cm) (hcm' : 0 < cm')
    (ha : alpha < 0) {pvals : List ℚ} (hp : ∀ p ∈ pvals, 0 ≤ p) :
    critP cm alpha pvals = critP cm' alpha pvals := by
  have hcand : candRanks cm alpha pvals = candRanks cm' alpha pvals := by
    unfold candRanks
    apply List.filter_congr
    intro k hk
    have hklen := List.mem_range.mp hk
    rcases Nat.eq_zero_or_pos k with rfl | hkpos
    · simp
    · have hneg : ∀ c : ℚ, 0 < c →
          ((k : ℚ) / ((pvals.length : ℚ) * c)) * alpha < 0 := by
        intro c hc
        apply mul_neg_of_pos_of_neg _ ha
        have hmlen : 0 < pvals.length := lt_of_le_of_lt (Nat.zero_le _) hklen
        have h1 : (0 : ℚ) < (k : ℚ) := by exact_mod_cast hkpos
        have h2 : (0 : ℚ) < (pvals.length : ℚ) := by exact_mod_cast hmlen
        positivity
      have hnn : 0 ≤ (sortedPvals pvals).getD k 0 := sortedPvals_getD_nonneg hp hklen
      have h1 : ¬ ((sortedPvals pvals).getD k 0 ≤
          ((k : ℚ) / ((pvals.length : ℚ) * cm)) * alpha) :=
        not_le.mpr (lt_of_lt_of_le (hneg cm hcm) hnn)
      have h2 : ¬ ((sortedPvals pvals).getD k 0 ≤
          ((k : ℚ) / ((pvals.length : ℚ) * cm')) * alpha) :=
        not_le.mpr (lt_of_lt_of_le (hneg cm' hcm') hnn)
      rw [decide_eq_false h1, decide_eq_false h2]
  unfold critP
  rw [hcand]

/-- Claim C7: on a nonnegative p-value series with more than one element, the
BY critical p-value never exceeds the BH critical p-value for every alpha
(the harmonic correction is more conservative). -/
theorem C7_BY_crit_le_BH_crit (alpha : ℚ) (pvals : List ℚ)
    (hm : 2 ≤ pvals.length) (hp : ∀ p ∈ pvals, 0 ≤ p) :
    critP (c_m "BY" pvals.length) alpha pvals ≤
      critP (c_m "BH" pvals.length) alpha pvals := by
  have hm1 : 1 ≤ pvals.length := le_trans (by norm_num) hm
  rcases lt_or_le alpha 0 with haneg | ha
  · rw [c_m_BY, c_m_BH]
    exact le_of_eq (critP_eq_of_neg_alpha
      (lt_of_lt_of_le one_pos (one_le_harmonic hm1)) one_pos haneg hp)
  have hH : (1 : ℚ) ≤ harmonic pvals.length := one_le_harmonic hm1
  have hmpos : (0 : ℚ) < (pvals.length : ℚ) := by
    exact_mod_cast Nat.lt_of_lt_of_le Nat.zero_lt_one hm1
  -- the BY threshold is below the BH threshold at every rank
  have hthr : ∀ k : ℕ,
      ((k : ℚ) / ((pvals.length : ℚ) * harmonic pvals.length)) * alpha ≤
        ((k : ℚ) / ((pvals.length : ℚ) * 1)) * alpha := by
    intro k
    apply mul_le_mul_of_nonneg_right _ ha
    apply div_le_div_of_nonneg_left (by positivity) (by simpa using hmpos)
    calc (pvals.length : ℚ) * 1 = (pvals.length : ℚ) := by ring
      _ ≤ (pvals.length : ℚ) * harmonic pvals.length := by
          nlinarith [hmpos, hH]
  -- hence every BY candidate rank is a BH candidate rank
  have hsub : ∀ k, k ∈ candRanks (c_m "BY" pvals.length) alpha pvals →
      k ∈ candRanks (c_m "BH" pvals.length) alpha pvals := by
    intro k hk
    rw [c_m_BY] at hk
    rw [c_m_BH]
    rcases mem_candRanks.mp hk with ⟨hk1, hk2⟩
    exact mem_candRanks.mpr ⟨hk1, le_trans hk2 (hthr k)⟩
  rw [c_m_BY, c_m_BH]
  unfold critP
  cases hy : listMax? (candRanks (harmonic pvals.length) alpha pvals) with
  | none =>
    cases hb : listMax? (candRanks 1 alpha pvals) with
    | none => exact le_refl 0
    | some kB =>
      exact sortedPvals_getD_nonneg hp (candRanks_lt_length (listMax?_mem hb))
  | some kY =>
    have hkY : kY ∈ candRanks 1 alpha pvals := by
      have := listMax?_mem hy
      rw [← c_m_BY pvals.length] at this
      have := hsub kY this
      rwa [c_m_BH] at this
    obtain ⟨kB, hb⟩ := listMax?_isSome_of_mem hkY
    rw [hb]
    exact sortedPvals_getD_mono (le_listMax? hkY hb)
      (candRanks_lt_length (listMax?_mem hb))

theorem C7_BY_crit_le_BH_crit_w :
    (2 ≤ ([1/100, 1/25, 3/100, 1/200] : List ℚ).length ∧
      (∀ p ∈ ([1/100, 1/25, 3/100, 1/200] : List ℚ), 0 ≤ p)) ∧
    critP (c_m "BY" ([1/100, 1/25, 3/100, 1/200] : List ℚ).length) (1/20)
        [1/100, 1/25, 3/100, 1/200] ≤
      critP (c_m "BH" ([1/100, 1/25, 3/100, 1/200] : List ℚ).length) (1/20)
        [1/100, 1/25, 3/100, 1/200] := by
  have h1 : 2 ≤ ([1/100, 1/25, 3/100, 1/200] : List ℚ).length := by norm_num
  have h3 : ∀ p ∈ ([1/100, 1/25, 3/100, 1/200] : List ℚ), 0 ≤ p := by norm_num
  exact ⟨⟨h1, h3⟩, C7_BY_crit_le_BH_crit (1/20) _ h1 h3⟩

/-! ### Helper lemmas: `get_lmer_AICs` -/

theorem mem_sortCells {cells : List Cell} {a : Cell} :
    a ∈ sortCells cells ↔ a ∈ cells :=
  (List.perm_insertionSort cellLe cells).mem_iff

theorem sliceMin_le {cells : List Cell} {a : Cell} (ha : a ∈ cells) :
    sliceMin cells a.time a.channel ≤ a.value := by
  have hmem : a ∈ sliceCells cells a.time a.channel :=
    List.mem_filter.mpr ⟨ha, by simp⟩
  have hv : a.value ∈ (sliceCells cells a.time a.channel).map (fun x => x.value) :=
    List.mem_map_of_mem _ hmem
  obtain ⟨m, hm⟩ := listMin?_isSome_of_mem hv
  unfold sliceMin
  rw [hm]
  exact listMin?_le hv hm

theorem sliceMin_attained {cells : List Cell} {t : ℤ} {c : String}
    (hne : sliceCells cells t c ≠ []) :
    ∃ a ∈ sliceCells cells t c, a.value = sliceMin cells t c := by
  obtain ⟨a0, ha0⟩ := List.exists_mem_of_ne_nil _ hne
  have hv : a0.value ∈ (sliceCells cells t c).map (fun x => x.value) :=
    List.mem_map_of_mem _ ha0
  obtain ⟨m, hm⟩ := listMin?_isSome_of_mem hv
  obtain ⟨a, ha, hav⟩ := List.mem_map.mp (listMin?_mem hm)
  refine ⟨a, ha, ?_⟩
  unfold sliceMin
  rw [hm, hav]

/-- Unfolds a successful `get_lmer_AICs` run into its three components. -/
theorem get_lmer_AICs_ok {rows : List Row} {out : List AICEntry}
    (h : get_lmer_AICs rows = Except.ok out) :
    rows.isEmpty = false ∧
    allCombosNonempty (sortCells (stackCells rows (firstParam rows) "AIC")) = true ∧
    out = (addDeltas (sortCells (stackCells rows (firstParam rows) "AIC"))).flatMap
      (fun d => ((sortCells (stackCells rows (firstParam rows) "has_warning")).filter
        (fun w =>
          decide (w.time = d.time ∧ w.model = d.model ∧ w.channel = d.channel))).map
        (fun w => AICEntry.mk d.time d.model d.channel d.aic d.min_delta w.value)) := by
  simp only [get_lmer_AICs] at h
  by_cases he : rows.isEmpty = true
  · rw [if_pos he] at h
    cases h
  · rw [if_neg he] at h
    by_cases hg : allCombosNonempty
        (sortCells (stackCells rows (firstParam rows) "AIC")) = true
    · rw [if_pos hg] at h
      refine ⟨by simpa using he, hg, ?_⟩
      exact (Except.ok.injEq _ _ ▸ h).symm
    · rw [if_neg hg] at h
      cases h

/-- Membership in the output of a successful `get_lmer_AICs` run. -/
theorem get_lmer_AICs_mem {rows : List Row} {out : List AICEntry}
    (h : get_lmer_AICs rows = Except.ok out) {e : AICEntry} :
    e ∈ out ↔
      ∃ a ∈ stackCells rows (firstParam rows) "AIC",
        ∃ w ∈ stackCells rows (firstParam rows) "has_warning",
          w.time = a.time ∧ w.model = a.model ∧ w.channel = a.channel ∧
          e = AICEntry.mk a.time a.model a.channel a.value
            (a.value - sliceMin (sortCells (stackCells rows (firstParam rows) "AIC"))
              a.time a.channel) w.value := by
  obtain ⟨-, -, hout⟩ := get_lmer_AICs_ok h
  rw [hout]
  simp only [List.mem_flatMap, addDeltas, List.mem_map, List.mem_filter,
    decide_eq_true_eq, mem_sortCells]
  constructor
  · rintro ⟨d, ⟨a, ha, rfl⟩, e', ⟨⟨hw, hkey⟩, rfl⟩⟩
    exact ⟨a, ha, e', hw, hkey.1, hkey.2.1, hkey.2.2, rfl⟩
  · rintro ⟨a, ha, w, hw, ht, hm, hc, rfl⟩
    exact ⟨_, ⟨a, ha, rfl⟩, w, ⟨⟨hw, ht, hm, hc⟩, rfl⟩⟩

/-! ### Claim theorems: `get_lmer_AICs` -/

/-- Claim C2: in a table produced by `get_lmer_AICs` (with the AIC and
has_warning row keys aligned, so that the final inner merge drops nothing),
every row's min_delta equals its AIC minus the minimum AIC over the models
fitted at its (time, channel) point; consequently every min_delta is
nonnegative and every (time, channel) point occurring in the table has a row
with min_delta = 0. -/
theorem C2_aic_min_delta {rows : List Row} {out : List AICEntry}
    (h : get_lmer_AICs rows = Except.ok out)
    (halign : ∀ a ∈ stackCells rows (firstParam rows) "AIC",
      ∃ w ∈ stackCells rows (firstParam rows) "has_warning",
        w.time = a.time ∧ w.model = a.model ∧ w.channel = a.channel) :
    (∀ e ∈ out,
      e.min_delta =
        e.aic - sliceMin (sortCells (stackCells rows (firstParam rows) "AIC"))
          e.time e.channel ∧
      0 ≤ e.min_delta) ∧
    (∀ (t : ℤ) (c : String), (∃ e ∈ out, e.time = t ∧ e.channel = c) →
      ∃ e ∈ out, e.time = t ∧ e.channel = c ∧ e.min_delta = 0) := by
  constructor
  · intro e he
    obtain ⟨a, ha, w, hw, -, -, -, rfl⟩ := (get_lmer_AICs_mem h).mp he
    refine ⟨rfl, ?_⟩
    have : sliceMin (sortCells (stackCells rows (firstParam rows) "AIC"))
        a.time a.channel ≤ a.value :=
      sliceMin_le (mem_sortCells.mpr ha)
    simpa using this
  · intro t c hex
    obtain ⟨e, he, het, hec⟩ := hex
    obtain ⟨a, ha, w, hw, -, -, -, heq⟩ := (get_lmer_AICs_mem h).mp he
    -- the slice at (t, c) is nonempty: it contains a
    have hat : a.time = t := by rw [heq] at het; exact het
    have hac : a.channel = c := by rw [heq] at hec; exact hec
    have haslice : a ∈ sliceCells (sortCells (stackCells rows (firstParam rows) "AIC")) t c :=
      List.mem_filter.mpr ⟨mem_sortCells.mpr ha, by simp [hat, hac]⟩
    have hne : sliceCells (sortCells (stackCells rows (firstParam rows) "AIC")) t c ≠ [] :=
      List.ne_nil_of_mem haslice
    obtain ⟨amin, hmin_mem, hmin_val⟩ := sliceMin_attained hne
    have hkey := List.mem_filter.mp hmin_mem
    have hmin_t : amin.time = t := (decide_eq_true_eq.mp hkey.2).1
    have hmin_c : amin.channel = c := (decide_eq_true_eq.mp hkey.2).2
    have hmin_aics : amin ∈ stackCells rows (firstParam rows) "AIC" :=
      mem_sortCells.mp hkey.1
    obtain ⟨w, hw, hwt, hwm, hwc⟩ := halign amin hmin_aics
    refine ⟨AICEntry.mk amin.time amin.model amin.channel amin.value
      (amin.value - sliceMin (sortCells (stackCells rows (firstParam rows) "AIC"))
        amin.time amin.channel) w.value, ?_, hmin_t, hmin_c, ?_⟩
    · exact (get_lmer_AICs_mem h).mpr ⟨amin, hmin_aics, w, hw, hwt, hwm, hwc, rfl⟩
    · show amin.value - _ = 0
      rw [hmin_t, hmin_c, ← hmin_val]
      ring

theorem C2_aic_min_delta_w :
    ∃ out, get_lmer_AICs rowsOK = Except.ok out ∧
      (∀ e ∈ out,
        e.min_delta =
          e.aic - sliceMin (sortCells (stackCells rowsOK (firstParam rowsOK) "AIC"))
            e.time e.channel ∧
        0 ≤ e.min_delta) ∧
      (∃ e ∈ out, e.time = 0 ∧ e.channel = "chA" ∧ e.min_delta = 0) := by
  refine ⟨[AICEntry.mk 0 "m1" "chA" 10 0 0, AICEntry.mk 0 "m2" "chA" 12 2 1], ?_, ?_⟩
  · with_unfolding_all decide
  · have h : get_lmer_AICs rowsOK =
        Except.ok [AICEntry.mk 0 "m1" "chA" 10 0 0, AICEntry.mk 0 "m2" "chA" 12 2 1] := by
      with_unfolding_all decide
    have halign : ∀ a ∈ stackCells rowsOK (firstParam rowsOK) "AIC",
        ∃ w ∈ stackCells rowsOK (firstParam rowsOK) "has_warning",
          w.time = a.time ∧ w.model = a.model ∧ w.channel = a.channel := by
      with_unfolding_all decide
    have hmain := C2_aic_min_delta h halign
    refine ⟨hmain.1, ?_⟩
    refine hmain.2 0 "chA" ?_
    exact ⟨AICEntry.mk 0 "m1" "chA" 10 0 0, by simp, rfl, rfl⟩

/-- Claim C4, counterexample: `rowsC4` has an AIC row (channel MiCe) with no
matching has_warning row, yet `get_lmer_AICs` succeeds and silently returns a
table in which that row has been dropped — it does not fail. -/
theorem C4_counterexample :
    (∃ a ∈ stackCells rowsC4 (firstParam rowsC4) "AIC",
      ∀ w ∈ stackCells rowsC4 (firstParam rowsC4) "has_warning",
        ¬ (w.time = a.time ∧ w.model = a.model ∧ w.channel = a.channel)) ∧
    get_lmer_AICs rowsC4 = Except.ok [AICEntry.mk 0 "x+(1|s)" "MiPf" 10 0 0] ∧
    (∃ a ∈ stackCells rowsC4 (firstParam rowsC4) "AIC",
      ∀ e ∈ [AICEntry.mk 0 "x+(1|s)" "MiPf" 10 0 0],
        ¬ (e.time = a.time ∧ e.model = a.model ∧ e.channel = a.channel)) := by
  refine ⟨?_, ?_, ?_⟩ <;> with_unfolding_all decide

/-- Claim C4, amended: the merge of the AIC table with the has-warning table
is an inner join on the (time, model, channel) keys: a key appears in the
output iff it appears in both tables; non-matching rows are silently dropped
and no error is raised. -/
theorem C4_inner_join {rows : List Row} {out : List AICEntry}
    (h : get_lmer_AICs rows = Except.ok out) (t : ℤ) (mo ch : String) :
    (∃ e ∈ out, e.time = t ∧ e.model = mo ∧ e.channel = ch) ↔
      ((∃ a ∈ stackCells rows (firstParam rows) "AIC",
          a.time = t ∧ a.model = mo ∧ a.channel = ch) ∧
       (∃ w ∈ stackCells rows (firstParam rows) "has_warning",
          w.time = t ∧ w.model = mo ∧ w.channel = ch)) := by
  constructor
  · rintro ⟨e, he, het, hem, hec⟩
    obtain ⟨a, ha, w, hw, hwt, hwm, hwc, rfl⟩ := (get_lmer_AICs_mem h).mp he
    exact ⟨⟨a, ha, het, hem, hec⟩, ⟨w, hw, hwt.trans het, hwm.trans hem, hwc.trans hec⟩⟩
  · rintro ⟨⟨a, ha, hat, ham, hac⟩, ⟨w, hw, hwt, hwm, hwc⟩⟩
    refine ⟨AICEntry.mk a.time a.model a.channel a.value
      (a.value - sliceMin (sortCells (stackCells rows (firstParam rows) "AIC"))
        a.time a.channel) w.value, ?_, hat, ham, hac⟩
    exact (get_lmer_AICs_mem h).mpr
      ⟨a, ha, w, hw, hwt.trans hat.symm, hwm.trans ham.symm, hwc.trans hac.symm, rfl⟩

theorem C4_inner_join_w :
    (∃ e ∈ [AICEntry.mk 0 "m1" "chA" 10 0 0, AICEntry.mk 0 "m2" "chA" 12 2 1],
      e.time = 0 ∧ e.model = "m1" ∧ e.channel = "chA") ↔
      ((∃ a ∈ stackCells rowsOK (firstParam rowsOK) "AIC",
          a.time = 0 ∧ a.model = "m1" ∧ a.channel = "chA") ∧
       (∃ w ∈ stackCells rowsOK (firstParam rowsOK) "has_warning",
          w.time = 0 ∧ w.model = "m1" ∧ w.channel = "chA")) := by
  have h : get_lmer_AICs rowsOK =
      Except.ok [AICEntry.mk 0 "m1" "chA" 10 0 0, AICEntry.mk 0 "m2" "chA" 12 2 1] := by
    with_unfolding_all decide
  exact C4_inner_join h 0 "m1" "chA"

theorem countP_sortCells (p : Cell → Bool) (cells : List Cell) :
    List.countP p (sortCells cells) = List.countP p cells :=
  (List.perm_insertionSort cellLe cells).countP_eq p

theorem countP_flatMap {α β : Type} (p : β → Bool) (f : α → List β) (l : List α) :
    List.countP p (l.flatMap f) = (l.map (fun a => List.countP p (f a))).sum := by
  induction l with
  | nil => rfl
  | cons a t ih => simp [List.countP_append, ih]

theorem sum_map_ite {α : Type} (p : α → Bool) (l : List α) :
    (l.map (fun a => if p a = true then 1 else 0)).sum = List.countP p l := by
  induction l with
  | nil => rfl
  | cons a t ih =>
    by_cases hp : p a = true <;> simp [List.countP_cons, hp, ih] <;> omega

/-- Claim C8, counterexample: channel chA was fitted only at time 0 and chB
only at time 1, so the (0, chB) combination of observed times and channels
carries zero fitted formulas; `get_lmer_AICs` then fails with `min()` of an
empty sequence instead of silently producing fewer delta rows. -/
theorem C8_counterexample :
    sliceCells (stackCells rowsC8 (firstParam rowsC8) "AIC") 0 "chA" ≠ [] ∧
    sliceCells (stackCells rowsC8 (firstParam rowsC8) "AIC") 0 "chB" = [] ∧
    get_lmer_AICs rowsC8 =
      Except.error "ValueError: min() arg is an empty sequence" := by
  refine ⟨?_, ?_, ?_⟩ <;> with_unfolding_all decide

/-- Claim C8, amended: when the run succeeds (every combination of observed
times and channels carries at least one fitted formula) and each AIC record
has exactly one matching has_warning record, the output has exactly as many
delta rows at each (time, model, channel) key as the stacked AIC input —
fewer fitted formulas at a point silently yield correspondingly fewer delta
rows, with no imputation. -/
theorem C8_fewer_rows {rows : List Row} {out : List AICEntry}
    (h : get_lmer_AICs rows = Except.ok out)
    (hw1 : ∀ a ∈ stackCells rows (firstParam rows) "AIC",
      List.countP
        (fun w => decide (w.time = a.time ∧ w.model = a.model ∧ w.channel = a.channel))
        (stackCells rows (firstParam rows) "has_warning") = 1) :
    ∀ (t : ℤ) (mo c : String),
      List.countP (fun e => decide (e.time = t ∧ e.model = mo ∧ e.channel = c)) out =
      List.countP (fun a => decide (a.time = t ∧ a.model = mo ∧ a.channel = c))
        (stackCells rows (firstParam rows) "AIC") := by
  intro t mo c
  obtain ⟨-, -, hout⟩ := get_lmer_AICs_ok h
  rw [hout, countP_flatMap]
  have hterm : ∀ d ∈ addDeltas (sortCells (stackCells rows (firstParam rows) "AIC")),
      List.countP (fun e => decide (e.time = t ∧ e.model = mo ∧ e.channel = c))
        (((sortCells (stackCells rows (firstParam rows) "has_warning")).filter
          (fun w =>
            decide (w.time = d.time ∧ w.model = d.model ∧ w.channel = d.channel))).map
          (fun w => AICEntry.mk d.time d.model d.channel d.aic d.min_delta w.value)) =
      if decide (d.time = t ∧ d.model = mo ∧ d.channel = c) = true then 1 else 0 := by
    intro d hd
    obtain ⟨a, ha, rfl⟩ := List.mem_map.mp hd
    have ha' : a ∈ stackCells rows (firstParam rows) "AIC" := mem_sortCells.mp ha
    rw [List.countP_map]
    by_cases hk : a.time = t ∧ a.model = mo ∧ a.channel = c
    · rw [if_pos (by simpa using hk)]
      have hconst : ∀ w ∈ (sortCells (stackCells rows (firstParam rows) "has_warning")).filter
          (fun w => decide (w.time = a.time ∧ w.model = a.model ∧ w.channel = a.channel)),
          ((fun e => decide (e.time = t ∧ e.model = mo ∧ e.channel = c)) ∘
            (fun w => AICEntry.mk a.time a.model a.channel a.value
              (a.value - sliceMin (sortCells (stackCells rows (firstParam rows) "AIC"))
                a.time a.channel) w.value)) w = true := by
        intro w _
        simpa using hk
      rw [List.countP_eq_length.mpr hconst, ← List.countP_eq_length_filter]
      rw [countP_sortCells]
      exact hw1 a ha'
    · rw [if_neg (by simpa using hk)]
      apply List.countP_eq_zero.mpr
      intro w _
      simpa using hk
  rw [List.map_congr_left hterm, sum_map_ite, addDeltas, List.countP_map]
  exact countP_sortCells _ _

theorem C8_fewer_rows_w :
    List.countP (fun e => decide (e.time = 0 ∧ e.model = "m1" ∧ e.channel = "chA"))
      [AICEntry.mk 0 "m1" "chA" 10 0 0, AICEntry.mk 0 "m2" "chA" 12 2 1] =
    List.countP (fun a => decide (a.time = 0 ∧ a.model = "m1" ∧ a.channel = "chA"))
      (stackCells rowsOK (firstParam rowsOK) "AIC") := by
  have h : get_lmer_AICs rowsOK =
      Except.ok [AICEntry.mk 0 "m1" "chA" 10 0 0, AICEntry.mk 0 "m2" "chA" 12 2 1] := by
    with_unfolding_all decide
  have hw1 : ∀ a ∈ stackCells rowsOK (firstParam rowsOK) "AIC",
      List.countP
        (fun w => decide (w.time = a.time ∧ w.model = a.model ∧ w.channel = a.channel))
        (stackCells rowsOK (firstParam rowsOK) "has_warning") = 1 := by
    with_unfolding_all decide
  exact C8_fewer_rows h hw1 0 "m1" "chA"

/-! ### Helper lemmas: the codepoint string order -/

theorem charsLe_refl (l : List Char) : charsLe l l = true := by
  induction l with
  | nil => rfl
  | cons a t ih => simp [charsLe, ih]

theorem charsLe_total (a b : List Char) : charsLe a b = true ∨ charsLe b a = true := by
  induction a generalizing b with
  | nil => left; rfl
  | cons x xs ih =>
    cases b with
    | nil => right; rfl
    | cons y ys =>
      rcases Nat.lt_trichotomy x.toNat y.toNat with h | h | h
      · left; simp [charsLe, h]
      · have h1 : ¬ x.toNat < y.toNat := by omega
        have h2 : ¬ y.toNat < x.toNat := by omega
        rcases ih ys with h3 | h3
        · left; simp [charsLe, h1, h2, h3]
        · right; simp [charsLe, h1, h2, h3]
      · right; simp [charsLe, h]

theorem charsLe_trans {a b c : List Char} (h1 : charsLe a b = true)
    (h2 : charsLe b c = true) : charsLe a c = true := by
  induction a generalizing b c with
  | nil => rfl
  | cons x xs ih =>
    cases b with
    | nil => simp [charsLe] at h1
    | cons y ys =>
      cases c with
      | nil => simp [charsLe] at h2
      | cons z zs =>
        rw [charsLe] at h1 h2 ⊢
        rcases Nat.lt_trichotomy x.toNat y.toNat with hxy | hxy | hxy
        · rcases Nat.lt_trichotomy y.toNat z.toNat with hyz | hyz | hyz
          · rw [if_pos (by omega)]
          · rw [if_pos (by omega)]
          · rw [if_neg (by omega), if_pos hyz] at h2
            cases h2
        · rcases Nat.lt_trichotomy y.toNat z.toNat with hyz | hyz | hyz
          · rw [if_pos (by omega)]
          · rw [if_neg (by omega), if_neg (by omega)] at h1 h2 ⊢
            exact ih h1 h2
          · rw [if_neg (by omega), if_pos hyz] at h2
            cases h2
        · rw [if_neg (by omega), if_pos hxy] at h1
          cases h1

theorem char_eq_of_toNat_eq {x y : Char} (h : x.toNat = y.toNat) : x = y :=
  Char.eq_of_val_eq (UInt32.ext h)

theorem charsLe_antisymm {a b : List Char} (h1 : charsLe a b = true)
    (h2 : charsLe b a = true) : a = b := by
  induction a generalizing b with
  | nil =>
    cases b with
    | nil => rfl
    | cons y ys => simp [charsLe] at h2
  | cons x xs ih =>
    cases b with
    | nil => simp [charsLe] at h1
    | cons y ys =>
      rw [charsLe] at h1 h2
      rcases Nat.lt_trichotomy x.toNat y.toNat with hxy | hxy | hxy
      · rw [if_neg (by omega), if_pos hxy] at h2
        cases h2
      · rw [if_neg (by omega), if_neg (by omega)] at h1 h2
        rw [char_eq_of_toNat_eq hxy, ih h1 h2]
      · rw [if_neg (by omega), if_pos hxy] at h1
        cases h1

theorem strLe_refl (s : String) : strLe s s = true := charsLe_refl _

theorem strLe_total (s t : String) : strLe s t = true ∨ strLe t s = true :=
  charsLe_total _ _

theorem strLe_trans {s t u : String} (h1 : strLe s t = true)
    (h2 : strLe t u = true) : strLe s u = true :=
  charsLe_trans h1 h2

theorem strLe_antisymm {s t : String} (h1 : strLe s t = true)
    (h2 : strLe t s = true) : s = t := by
  cases s
  cases t
  exact congrArg String.mk (charsLe_antisymm h1 h2)

/-! ### Helper lemmas: the row order of `sort_index` -/

theorem rowLe_refl (x : Row) : rowLe x x := by
  unfold rowLe
  simp [strLe_refl]

theorem rowLe_total (x y : Row) : rowLe x y ∨ rowLe y x := by
  unfold rowLe
  by_cases ht : x.time = y.time
  · by_cases hm : x.model = y.model
    · by_cases hp : x.param = y.param
      · simp only [ht, hm, hp, ne_eq, not_true_eq_false, if_false, ite_false,
          if_neg (not_not_intro rfl)]
        exact strLe_total x.key y.key
      · have hp' : ¬ y.param = x.param := fun h => hp h.symm
        simp only [ht, hm, ne_eq, not_true_eq_false, if_neg (not_not_intro rfl),
          if_pos hp, if_pos hp']
        exact strLe_total x.param y.param
    · have hm' : ¬ y.model = x.model := fun h => hm h.symm
      simp only [ht, ne_eq, not_true_eq_false, if_neg (not_not_intro rfl),
        if_pos hm, if_pos hm']
      exact strLe_total x.model y.model
  · have ht' : ¬ y.time = x.time := fun h => ht h.symm
    simp only [if_pos ht, if_pos ht', decide_eq_true_eq]
    exact le_total x.time y.time

theorem rowLe_trans {x y z : Row} (h1 : rowLe x y) (h2 : rowLe y z) : rowLe x z := by
  unfold rowLe at h1 h2 ⊢
  by_cases ht1 : x.time = y.time
  · by_cases ht2 : y.time = z.time
    · have ht3 : x.time = z.time := ht1.trans ht2
      rw [if_neg (not_not_intro ht1)] at h1
      rw [if_neg (not_not_intro ht2)] at h2
      rw [if_neg (not_not_intro ht3)]
      by_cases hm1 : x.model = y.model
      · by_cases hm2 : y.model = z.model
        · have hm3 : x.model = z.model := hm1.trans hm2
          rw [if_neg (not_not_intro hm1)] at h1
          rw [if_neg (not_not_intro hm2)] at h2
          rw [if_neg (not_not_intro hm3)]
          by_cases hp1 : x.param = y.param
          · by_cases hp2 : y.param = z.param
            · have hp3 : x.param = z.param := hp1.trans hp2
              rw [if_neg (not_not_intro hp1)] at h1
              rw [if_neg (not_not_intro hp2)] at h2
              rw [if_neg (not_not_intro hp3)]
              exact strLe_trans h1 h2
            · have hp3 : ¬ x.param = z.param := fun h => hp2 (hp1.symm.trans h)
              rw [if_pos hp2] at h2
              rw [if_pos hp3, hp1]
              exact h2
          · by_cases hp2 : y.param = z.param
            · have hp3 : ¬ x.param = z.param := fun h => hp1 (h.trans hp2.symm)
              rw [if_pos hp1] at h1
              rw [if_pos hp3, ← hp2]
              exact h1
            · rw [if_pos hp1] at h1
              rw [if_pos hp2] at h2
              by_cases hp3 : x.param = z.param
              · have h2' : strLe y.param x.param = true := by rw [hp3]; exact h2
                exact absurd (strLe_antisymm h1 h2') hp1
              · rw [if_pos hp3]
                exact strLe_trans h1 h2
        · have hm3 : ¬ x.model = z.model := fun h => hm2 (hm1.symm.trans h)
          rw [if_pos hm2] at h2
          rw [if_pos hm3, hm1]
          exact h2
      · by_cases hm2 : y.model = z.model
        · have hm3 : ¬ x.model = z.model := fun h => hm1 (h.trans hm2.symm)
          rw [if_pos hm1] at h1
          rw [if_pos hm3, ← hm2]
          exact h1
        · rw [if_pos hm1] at h1
          rw [if_pos hm2] at h2
          by_cases hm3 : x.model = z.model
          · have h2' : strLe y.model x.model = true := by rw [hm3]; exact h2
            exact absurd (strLe_antisymm h1 h2') hm1
          · rw [if_pos hm3]
            exact strLe_trans h1 h2
    · have ht3 : ¬ x.time = z.time := fun h => ht2 (ht1.symm.trans h)
      rw [if_pos ht2] at h2
      rw [if_pos ht3, ht1]
      exact h2
  · by_cases ht2 : y.time = z.time
    · have ht3 : ¬ x.time = z.time := fun h => ht1 (h.trans ht2.symm)
      rw [if_pos ht1] at h1
      rw [if_pos ht3, ← ht2]
      exact h1
    · rw [if_pos ht1] at h1
      rw [if_pos ht2] at h2
      have hxy := of_decide_eq_true h1
      have hyz := of_decide_eq_true h2
      by_cases ht3 : x.time = z.time
      · have hyx : y.time ≤ x.time := by rw [ht3]; exact hyz
        exact absurd (le_antisymm hxy hyx) ht1
      · rw [if_pos ht3]
        exact decide_eq_true (le_trans hxy hyz)

theorem rowLe_antisymm_key {x y : Row} (h1 : rowLe x y) (h2 : rowLe y x) :
    x.time = y.time ∧ x.model = y.model ∧ x.param = y.param ∧ x.key = y.key := by
  unfold rowLe at h1 h2
  by_cases ht : x.time = y.time
  · rw [if_neg (not_not_intro ht)] at h1
    rw [if_neg (not_not_intro ht.symm)] at h2
    by_cases hm : x.model = y.model
    · rw [if_neg (not_not_intro hm)] at h1
      rw [if_neg (not_not_intro hm.symm)] at h2
      by_cases hp : x.param = y.param
      · rw [if_neg (not_not_intro hp)] at h1
        rw [if_neg (not_not_intro hp.symm)] at h2
        exact ⟨ht, hm, hp, strLe_antisymm h1 h2⟩
      · rw [if_pos hp] at h1
        rw [if_pos (fun h => hp h.symm)] at h2
        exact absurd (strLe_antisymm h1 h2) hp
    · rw [if_pos hm] at h1
      rw [if_pos (fun h => hm h.symm)] at h2
      exact absurd (strLe_antisymm h1 h2) hm
  · rw [if_pos ht] at h1
    rw [if_pos (fun h => ht h.symm)] at h2
    exact absurd (le_antisymm (of_decide_eq_true h1) (of_decide_eq_true h2)) ht

instance : IsRefl Row rowLe := ⟨rowLe_refl⟩

instance : IsTotal Row rowLe := ⟨rowLe_total⟩

instance : IsTrans Row rowLe := ⟨fun _ _ _ => rowLe_trans⟩

theorem mem_sortRows {l : List Row} {x : Row} : x ∈ sortRows l ↔ x ∈ l :=
  (List.perm_insertionSort rowLe l).mem_iff

theorem sortRows_sorted (l : List Row) : List.Sorted rowLe (sortRows l) :=
  List.sorted_insertionSort rowLe l

/-- Two sorted lists that are permutations of each other and whose mutually
comparable-both-ways elements are equal, are equal. -/
theorem sorted_perm_ties_eq {l₁ l₂ : List Row} (hp : l₁.Perm l₂)
    (hs₁ : List.Sorted rowLe l₁) (hs₂ : List.Sorted rowLe l₂)
    (hties : ∀ x ∈ l₁, ∀ y ∈ l₂, rowLe x y → rowLe y x → x = y) : l₁ = l₂ := by
  induction l₁ generalizing l₂ with
  | nil => exact hp.nil_eq
  | cons a t ih =>
    cases l₂ with
    | nil =>
      have := hp.eq_nil
      cases this
    | cons b s =>
      have hab : a = b := by
        have hbmem : b ∈ a :: t := hp.mem_iff.mpr (by simp)
        have hamem : a ∈ b :: s := hp.mem_iff.mp (by simp)
        have h1 : rowLe a b := by
          rcases List.mem_cons.mp hbmem with h | h
          · rw [h]; exact rowLe_refl a
          · exact (List.sorted_cons.mp hs₁).1 b h
        have h2 : rowLe b a := by
          rcases List.mem_cons.mp hamem with h | h
          · rw [h]; exact rowLe_refl b
          · exact (List.sorted_cons.mp hs₂).1 a h
        exact hties a (by simp) b (by simp) h1 h2
      subst hab
      have hts : t.Perm s := hp.cons_inv
      have heq : t = s := by
        refine ih hts (List.sorted_cons.mp hs₁).2 (List.sorted_cons.mp hs₂).2 ?_
        intro x hx y hy
        exact hties x (List.mem_cons_of_mem a hx) y (List.mem_cons_of_mem a hy)
      rw [heq]

theorem model_of_mem_blockOf {adapter : String → FitResult} {rhs : String}
    {r : Row} (h : r ∈ blockOf adapter rhs) : r.model = rhs := by
  simp only [blockOf, List.mem_append, List.mem_map, List.mem_flatMap] at h
  rcases h with ⟨cr, -, rfl⟩ | ⟨av, -, p, -, ar, -, rfl⟩ <;> rfl

/-! ### Claim theorems: `fit_lmers` -/

/-- Claim C6: with a persistence target, a failing store write is caught: the
returned table is exactly the table returned with no persistence target, and
the failure surfaces only as a `warnings.warn` message; the computed result is
never altered or discarded and no exception escapes. -/
theorem C6_persistence_best_effort (adapter : String → FitResult)
    (RHSs : List String) (fg : String × String)
    (store : String → String → List Row → Except String Unit) :
    (fit_lmers adapter RHSs (some fg) store).1 =
      (fit_lmers adapter RHSs none store).1 ∧
    (∀ err,
      store fg.1 fg.2 (sortRows (RHSs.flatMap (blockOf adapter))) =
        Except.error err →
      (fit_lmers adapter RHSs (some fg) store).2 =
        ["save_as failed: " ++ err ++
         ". You can try to save the returned dataframe with pandas.to_hdf()"]) := by
  constructor
  · cases hs : store fg.1 fg.2 (sortRows (RHSs.flatMap (blockOf adapter))) <;>
      simp [fit_lmers, hs]
  · intro e he
    simp [fit_lmers, he]

theorem C6_persistence_best_effort_w :
    (fit_lmers cAdapter ["f"] (some ("tmp.h5", "lmer_coefs")) failStore).1 =
      (fit_lmers cAdapter ["f"] none failStore).1 ∧
    (fit_lmers cAdapter ["f"] (some ("tmp.h5", "lmer_coefs")) failStore).2 =
      ["save_as failed: " ++ "No such file or directory" ++
       ". You can try to save the returned dataframe with pandas.to_hdf()"] := by
  have h := C6_persistence_best_effort cAdapter ["f"] ("tmp.h5", "lmer_coefs") failStore
  exact ⟨h.1, h.2 "No such file or directory" rfl⟩

/-- Claim C9: with a deterministic fit adapter, `fit_lmers` applied to a
permutation of the formula list returns the same table, because per-formula
blocks are computed independently and the final re-sort on
(time, formula, param, statistic-kind) makes the concatenation
order-independent.  The adapter's block may not contain two distinct rows
with the same (time, param, key) index. -/
theorem C9_formula_order_irrelevant (adapter : String → FitResult)
    (RHSs RHSs' : List String)
    (store : String → String → List Row → Except String Unit)
    (hperm : RHSs'.Perm RHSs)
    (huniq : ∀ rhs, ∀ r ∈ blockOf adapter rhs, ∀ s ∈ blockOf adapter rhs,
      r.time = s.time → r.param = s.param → r.key = s.key → r = s) :
    fit_lmers adapter RHSs' none store = fit_lmers adapter RHSs none store := by
  have hp : (RHSs'.flatMap (blockOf adapter)).Perm (RHSs.flatMap (blockOf adapter)) := by
    have h1 := (hperm.map (blockOf adapter)).join
    simpa [List.flatMap_def] using h1
  have hties : ∀ p₁ ∈ RHSs'.flatMap (blockOf adapter),
      ∀ p₂ ∈ RHSs.flatMap (blockOf adapter),
      rowLe p₁ p₂ → rowLe p₂ p₁ → p₁ = p₂ := by
    intro p₁ hp₁ p₂ hp₂ hle1 hle2
    obtain ⟨r1, -, hb1⟩ := List.mem_flatMap.mp hp₁
    obtain ⟨r2, -, hb2⟩ := List.mem_flatMap.mp hp₂
    obtain ⟨ht, hm, hpp, hk⟩ := rowLe_antisymm_key hle1 hle2
    have e1 : p₁.model = r1 := model_of_mem_blockOf hb1
    have e2 : p₂.model = r2 := model_of_mem_blockOf hb2
    have hr : r1 = r2 := e1.symm.trans (hm.trans e2)
    subst hr
    exact huniq r1 p₁ hb1 p₂ hb2 ht hpp hk
  show (sortRows (RHSs'.flatMap (blockOf adapter)), ([] : List String)) =
    (sortRows (RHSs.flatMap (blockOf adapter)), ([] : List String))
  have hmain : sortRows (RHSs'.flatMap (blockOf adapter)) =
      sortRows (RHSs.flatMap (blockOf adapter)) := by
    apply sorted_perm_ties_eq
    · exact ((List.perm_insertionSort rowLe _).trans hp).trans
        (List.perm_insertionSort rowLe _).symm
    · exact sortRows_sorted _
    · exact sortRows_sorted _
    · intro x hx y hy
      exact hties x (mem_sortRows.mp hx) y (mem_sortRows.mp hy)
  rw [hmain]

theorem C9_formula_order_irrelevant_w :
    fit_lmers cAdapter ["g", "f"] none okStore =
      fit_lmers cAdapter ["f", "g"] none okStore := by
  refine C9_formula_order_irrelevant cAdapter ["f", "g"] ["g", "f"] okStore
    (List.Perm.swap "f" "g" []) ?_
  intro rhs r hr s hs h1 h2 h3
  have hval : blockOf cAdapter rhs =
      [Row.mk 0 rhs "(Intercept)" "Estimate" [("chA", some 1)],
       Row.mk 0 rhs "(Intercept)" "AIC" [("chA", some 2)],
       Row.mk 0 rhs "(Intercept)" "has_warning" [("chA", some 0)]] := rfl
  rw [hval] at hr hs
  simp only [List.mem_cons, List.not_mem_nil, or_false] at hr hs
  rcases hr with rfl | rfl | rfl <;> rcases hs with rfl | rfl | rfl <;>
    first
      | rfl
      | simp at h3

/-! ### Helper lemmas: `get_lmer_dfbetas` -/

theorem uniqueFA_nodup {α : Type} [DecidableEq α] (l : List α) :
    (uniqueFA l).Nodup := by
  suffices h : ∀ acc : List α, acc.Nodup →
      (l.foldl (fun acc a => if a ∈ acc then acc else acc ++ [a]) acc).Nodup by
    exact h [] List.nodup_nil
  induction l with
  | nil => intro acc hacc; exact hacc
  | cons a t ih =>
    intro acc hacc
    simp only [List.foldl_cons]
    by_cases hmem : a ∈ acc
    · rw [if_pos hmem]
      exact ih acc hacc
    · rw [if_neg hmem]
      refine ih _ ?_
      rw [List.nodup_append]
      exact ⟨hacc, List.nodup_singleton a, by simpa using hmem⟩

/-! ### Claim theorems: `get_lmer_dfbetas` -/

/-- Claim C3: `get_lmer_dfbetas` refits once per distinct level of the
grouping factor (the levels traversed are mutually distinct), each refit on
the table with that level's rows excluded, plus one fit on the complete
table, and a cell for parameter i and excluded level L holds
`(full_estimate_i − looo_estimate_{i,L}) / looo_SE_{i,L}`; when the SE is
nonzero the cell is 0 exactly when the leave-one-level-out estimate equals
the full-data estimate. -/
theorem C3_dfbetas (fit : List ERow → List CoefCell) (table : List ERow) :
    (uniqueFA (table.map (fun r => r.factorVal))).Nodup ∧
    (∀ e : DfbCell,
      e ∈ get_lmer_dfbetas fit table ↔
        (e.level ∈ uniqueFA (table.map (fun r => r.factorVal)) ∧
         ∃ est ∈ fit (table.filter (fun r => decide (¬ r.factorVal = e.level))),
           est.key = "Estimate" ∧ est.time = e.time ∧ est.param = e.param ∧
           est.chan = e.chan ∧
           ∃ se ∈ fit (table.filter (fun r => decide (¬ r.factorVal = e.level))),
             (fit (table.filter (fun r => decide (¬ r.factorVal = e.level)))).find?
               (fun c => decide (c.key = "SE" ∧ c.time = est.time ∧
                 c.param = est.param ∧ c.chan = est.chan)) = some se ∧
             ∃ full ∈ fit table,
               (fit table).find? (fun c => decide (c.key = "Estimate" ∧
                 c.time = est.time ∧ c.param = est.param ∧ c.chan = est.chan)) =
                 some full ∧
               e.val = (full.val - est.val) / se.val ∧
               (se.val ≠ 0 → (e.val = 0 ↔ est.val = full.val)))) := by
  refine ⟨uniqueFA_nodup _, ?_⟩
  intro e
  constructor
  · intro he
    simp only [get_lmer_dfbetas, List.mem_flatMap, List.mem_map] at he
    obtain ⟨lc, ⟨lv, hlv, rfl⟩, hmem⟩ := he
    obtain ⟨est, hest, hsome⟩ := List.mem_filterMap.mp hmem
    have hestkey : est.key = "Estimate" := by
      have := (List.mem_filter.mp hest).2
      simpa using this
    have hestmem := (List.mem_filter.mp hest).1
    rcases hse : (fit (table.filter (fun r => decide (¬ r.factorVal = lv)))).find?
        (fun c => decide (c.key = "SE" ∧ c.time = est.time ∧
          c.param = est.param ∧ c.chan = est.chan)) with _ | se
    · rw [hse] at hsome
      cases hsome
    · rcases hfull : (fit table).find? (fun c => decide (c.key = "Estimate" ∧
          c.time = est.time ∧ c.param = est.param ∧ c.chan = est.chan)) with _ | full
      · rw [hse, hfull] at hsome
        cases hsome
      · rw [hse, hfull] at hsome
        simp only [Option.some.injEq] at hsome
        subst hsome
        refine ⟨hlv, est, hestmem, hestkey, rfl, rfl, rfl,
          se, List.mem_of_find?_eq_some hse, hse,
          full, List.mem_of_find?_eq_some hfull, hfull, rfl, ?_⟩
        intro hsene
        rw [div_eq_zero_iff]
        constructor
        · rintro (h | h)
          · exact (sub_eq_zero.mp h).symm
          · exact absurd h hsene
        · intro h
          exact Or.inl (sub_eq_zero.mpr h.symm)
  · rintro ⟨hlv, est, hestmem, hestkey, ht, hpp, hc, se, -, hse, full, -, hfull,
      hval, -⟩
    simp only [get_lmer_dfbetas, List.mem_flatMap, List.mem_map]
    refine ⟨(e.level, fit (table.filter (fun r => decide (¬ r.factorVal = e.level)))),
      ⟨e.level, hlv, rfl⟩, ?_⟩
    refine List.mem_filterMap.mpr ⟨est, ?_, ?_⟩
    · exact List.mem_filter.mpr ⟨hestmem, by simpa using hestkey⟩
    · rw [hse, hfull]
      cases e
      simp only at ht hpp hc hval ⊢
      rw [ht, hpp, hc, hval]

theorem C3_dfbetas_w :
    DfbCell.mk 0 "(Intercept)" "s1" "chA" 5 ∈ get_lmer_dfbetas dfFit dfTable := by
  refine ((C3_dfbetas dfFit dfTable).2 _).mpr ?_
  with_unfolding_all decide

end Fitgrid
